import Mathlib

/-!
# Verification of the grassfire pathfinding core

A shallow embedding of `grassfire_algorithm` from `grassfirealgorigthm.py`
(lines 53–83), together with theorems settling the specified properties.

The Python code stores the distance field in a NumPy float array using
`inf` for unreached cells, `NaN` for obstacles and non-negative integers
for finite distances.  The embedding keeps those three states as an
inductive type `Val` and mirrors the IEEE-754 comparison semantics the
code relies on (`NaN` compares false under `==`, `<` and `>=`), because
the behaviour of the path-reconstruction loop hinges on them.

The breadth-first expansion (`while queue:`) and the greedy downhill walk
(`while current_pos != destination_point:`) are embedded as fuelled loops;
for the expansion the fuel `bfsFuel` is proved sufficient, for the walk the
fuel is exposed because the loop can genuinely diverge.
-/

namespace Grassfire

/-- A grid cell `(row, col)`, the Python coordinate tuple. -/
abbrev Pos : Type := Int × Int

/-- A cell of the NumPy field: `inf` (unreached), `nan` (obstacle), or a
finite distance.  Finite field values in the program are exactly the floats
`0.0, 1.0, 2.0, …`, represented here by their natural-number value. -/
inductive Val : Type
  | inf : Val
  | nan : Val
  | fin : Nat → Val
deriving DecidableEq, Repr

namespace Val

/-- Successor `v + 1` with float semantics: `inf + 1 = inf`, `nan + 1 = nan`
(line 66 adds `1` to the popped cell's value). -/
def succVal : Val → Val
  | .inf => .inf
  | .nan => .nan
  | .fin n => .fin (n + 1)

/-- The test `np.isinf` (lines 65 and 70): true only on `inf`, in particular false
on `nan`. -/
def isInf : Val → Bool
  | .inf => true
  | _ => false

/-- Float `==` on the values that occur: `nan` is equal to nothing,
`inf == inf` holds. -/
def feq : Val → Val → Bool
  | .fin m, .fin n => m == n
  | .inf, .inf => true
  | _, _ => false

/-- Float `<`: false whenever an operand is `nan`. -/
def flt : Val → Val → Bool
  | .fin m, .fin n => decide (m < n)
  | .fin _, .inf => true
  | _, _ => false

/-- Float `>=` (the progress guard of line 80): false whenever an operand
is `nan`. -/
def fge : Val → Val → Bool
  | .nan, _ => false
  | _, .nan => false
  | .inf, _ => true
  | .fin _, .inf => false
  | .fin m, .fin n => decide (n ≤ m)

end Val

/-- The bounds test `0 <= r < num_rows and 0 <= c < num_cols`
(lines 64 and 77). -/
def inBoundsB (numRows numCols : Nat) (p : Pos) : Bool :=
  decide (0 ≤ p.1) && decide (p.1 < (numRows : Int)) &&
    decide (0 ≤ p.2) && decide (p.2 < (numCols : Int))

/-- The four orthogonal offsets `[(-1, 0), (1, 0), (0, -1), (0, 1)]` in
source order (lines 62 and 76). -/
def deltas : List (Int × Int) := [(-1, 0), (1, 0), (0, -1), (0, 1)]

/-- Cell displacement `(row + d_row, col + d_col)`. -/
def addDelta (p : Pos) (d : Int × Int) : Pos := (p.1 + d.1, p.2 + d.2)

/-- Pointwise update of the field array. -/
def updateF (f : Pos → Val) (p : Pos) (v : Val) : Pos → Val :=
  fun q => if q = p then v else f q

/-- Lines 54–57: every cell `inf`, obstacle cells `nan`, and then the
destination forced to `0` (so the destination is `0` even when it is an
obstacle). -/
def initField (obstacles : Finset Pos) (dest : Pos) : Pos → Val :=
  fun c => if c = dest then .fin 0 else if c ∈ obstacles then .nan else .inf

/-- The state of the breadth-first expansion: the field, the FIFO queue,
and (as pure instrumentation) the list of every cell ever enqueued. -/
structure BfsState where
  f : Pos → Val
  q : List Pos
  log : List Pos

/-- Lines 62–67: visit the offsets `ds` of the popped cell `p` in order;
an in-bounds cell still `inf` receives `field[p] + 1` and is collected
(in visit order) for appending to the queue. -/
def expand (numRows numCols : Nat) (p : Pos) :
    List (Int × Int) → (Pos → Val) → ((Pos → Val) × List Pos)
  | [], f => (f, [])
  | d :: ds, f =>
    let c := addDelta p d
    if inBoundsB numRows numCols c && (f c).isInf then
      let f' := updateF f c (f p).succVal
      let r := expand numRows numCols p ds f'
      (r.1, c :: r.2)
    else
      expand numRows numCols p ds f

/-- One iteration of `while queue:` (lines 60–67): pop the front cell and
expand it; the identity on an empty queue. -/
def bfsStep (numRows numCols : Nat) (s : BfsState) : BfsState :=
  match s.q with
  | [] => s
  | p :: rest =>
    let r := expand numRows numCols p deltas s.f
    ⟨r.1, rest ++ r.2, s.log ++ r.2⟩

/-- The `while queue:` loop, fuelled: stops when the queue is empty. -/
def bfsRun (numRows numCols : Nat) : Nat → BfsState → BfsState
  | 0, s => s
  | fuel + 1, s =>
    match s.q with
    | [] => s
    | _ :: _ => bfsRun numRows numCols fuel (bfsStep numRows numCols s)

/-- Fuel proved sufficient for the expansion to drain its queue. -/
def bfsFuel (numRows numCols : Nat) : Nat := 5 * (numRows * numCols) + 1

/-- Line 59: `queue = [destination_point]` over the initial field. -/
def initState (obstacles : Finset Pos) (dest : Pos) : BfsState :=
  ⟨initField obstacles dest, [dest], [dest]⟩

/-- Lines 54–67 of `grassfire_algorithm`: the completed distance field. -/
def grassfireField (obstacles : Finset Pos) (dest : Pos)
    (numRows numCols : Nat) : Pos → Val :=
  (bfsRun numRows numCols (bfsFuel numRows numCols)
    (initState obstacles dest)).f

/-- Lines 76–77: the in-bounds orthogonal neighbours of `p`, in the order
the list comprehension produces them. -/
def neighborList (numRows numCols : Nat) (p : Pos) : List Pos :=
  (deltas.map (addDelta p)).filter (fun c => inBoundsB numRows numCols c)

/-- The sort key of line 78: `(field[pos], -pos[0], -pos[1])`. -/
def walkKey (f : Pos → Val) (p : Pos) : Val × Int × Int := (f p, -p.1, -p.2)

/-- Python tuple `<` on the keys: compare the float components first
(`nan`-aware), then the negated coordinates. -/
def keyLtB : Val × Int × Int → Val × Int × Int → Bool
  | (v, a, b), (w, a', b') =>
    if v.feq w then (if a == a' then decide (b < b') else decide (a < a'))
    else v.flt w

/-- Python's `min(xs, key=...)`: scan left to right, replacing the running
candidate only on a strict key decrease (so the first element wins ties,
and a `nan`-keyed candidate is never replaced).  `none` on the empty list,
where CPython raises `ValueError`. -/
def pyMin (f : Pos → Val) : List Pos → Option Pos
  | [] => none
  | x :: xs =>
    some (xs.foldl
      (fun best y => if keyLtB (walkKey f y) (walkKey f best) then y else best) x)

/-- Outcome of the path-reconstruction phase. -/
inductive WalkOut : Type
  | path : List Pos → WalkOut
  | crash : WalkOut
  | fuelOut : WalkOut
deriving DecidableEq, Repr

/-- Lines 72–82: the greedy downhill walk, fuelled.  `path l` means the
function returns the list `l`; `crash` marks `min` over an empty
neighbour list (a `ValueError`); `fuelOut` means the loop has not
terminated within the given fuel. -/
def walkAux (numRows numCols : Nat) (f : Pos → Val) (dest : Pos) :
    Nat → Pos → List Pos → WalkOut
  | 0, _, _ => .fuelOut
  | fuel + 1, cur, acc =>
    if cur = dest then .path ((acc ++ [dest]).reverse)
    else
      match pyMin f (neighborList numRows numCols cur) with
      | none => .crash
      | some nxt =>
        if (f nxt).fge (f cur) then .path []
        else walkAux numRows numCols f dest fuel nxt (acc ++ [cur])

/-- Lines 69–83: path reconstruction, including the `isinf` guard on
`field[start]` and the final reversal (`path[::-1]`). -/
def reconstruct (numRows numCols : Nat) (f : Pos → Val)
    (start dest : Pos) (fuel : Nat) : WalkOut :=
  if (f start).isInf then .path [] else
    walkAux numRows numCols f dest fuel start []

/-- Lines 53–83: the whole of `grassfire_algorithm`, returning the path
outcome and the field. -/
def grassfire_algorithm (obstacles : Finset Pos) (start dest : Pos)
    (numRows numCols : Nat) (fuel : Nat) : WalkOut × (Pos → Val) :=
  let f := grassfireField obstacles dest numRows numCols
  (reconstruct numRows numCols f start dest fuel, f)

/-- Reachability bound: `reachInB n c` holds when the cell `c` is reachable from the destination in at
most `n` orthogonal steps whose intermediate and final cells are in-bounds
non-obstacle cells (the destination itself counts as reachable in `0`
steps even when it is an obstacle, matching the forced `0`). -/
def reachInB (obstacles : Finset Pos) (dest : Pos) (numRows numCols : Nat) :
    Nat → Pos → Bool
  | 0, c => c == dest
  | n + 1, c =>
    reachInB obstacles dest numRows numCols n c ||
      (inBoundsB numRows numCols c && !(decide (c ∈ obstacles)) &&
        deltas.any (fun d =>
          reachInB obstacles dest numRows numCols n (addDelta c d)))

/-- Propositional form of `reachInB`. -/
def ReachIn (obstacles : Finset Pos) (dest : Pos) (numRows numCols : Nat)
    (n : Nat) (c : Pos) : Prop :=
  reachInB obstacles dest numRows numCols n c = true

instance (obstacles : Finset Pos) (dest : Pos) (numRows numCols n : Nat)
    (c : Pos) : Decidable (ReachIn obstacles dest numRows numCols n c) := by
  unfold ReachIn
  infer_instance

/-- Adjacency: `c` is an orthogonal neighbour of `p`. -/
def adjacent (p c : Pos) : Prop := ∃ d, d ∈ deltas ∧ c = addDelta p d

/-! ## Basic lemmas -/

theorem updateF_self (f : Pos → Val) (p : Pos) (v : Val) :
    updateF f p v p = v := by
  simp [updateF]

theorem updateF_ne (f : Pos → Val) (p q : Pos) (v : Val) (h : q ≠ p) :
    updateF f p v q = f q := by
  simp [updateF, h]

theorem Val.succVal_ne_inf {v : Val} (h : v ≠ .inf) : v.succVal ≠ .inf := by
  cases v <;> simp [Val.succVal] at h ⊢

theorem Val.isInf_iff {v : Val} : v.isInf = true ↔ v = .inf := by
  cases v <;> simp [Val.isInf]

theorem addDelta_ne_self {d : Int × Int} (hd : d ∈ deltas) (p : Pos) :
    addDelta p d ≠ p := by
  simp only [deltas, List.mem_cons, List.not_mem_nil, or_false] at hd
  rcases hd with h | h | h | h <;> subst h <;>
    simp [addDelta, Prod.ext_iff]

theorem deltas_symm {d : Int × Int} (hd : d ∈ deltas) :
    ∃ d', d' ∈ deltas ∧ ∀ p : Pos, addDelta (addDelta p d) d' = p := by
  simp only [deltas, List.mem_cons, List.not_mem_nil, or_false] at hd
  rcases hd with h | h | h | h <;> subst h
  · exact ⟨(1, 0), by simp [deltas], fun p => by
      simp [addDelta, Prod.ext_iff]⟩
  · exact ⟨(-1, 0), by simp [deltas], fun p => by
      simp [addDelta, Prod.ext_iff]⟩
  · exact ⟨(0, 1), by simp [deltas], fun p => by
      simp [addDelta, Prod.ext_iff]⟩
  · exact ⟨(0, -1), by simp [deltas], fun p => by
      simp [addDelta, Prod.ext_iff]⟩

theorem adjacent_of_delta {c : Pos} {d : Int × Int} (hd : d ∈ deltas) :
    adjacent (addDelta c d) c := by
  obtain ⟨d', hd', hinv⟩ := deltas_symm hd
  exact ⟨d', hd', (hinv c).symm⟩

theorem initField_dest (obstacles : Finset Pos) (dest : Pos) :
    initField obstacles dest dest = .fin 0 := by
  simp [initField]

theorem initField_fin {obstacles : Finset Pos} {dest c : Pos} {n : Nat}
    (h : initField obstacles dest c = .fin n) : c = dest ∧ n = 0 := by
  by_cases hc : c = dest
  · refine ⟨hc, ?_⟩
    rw [hc, initField_dest] at h
    exact (Val.fin.injEq _ _ ▸ h.symm :)
  · by_cases ho : c ∈ obstacles <;> simp [initField, hc, ho] at h

theorem initField_inf {obstacles : Finset Pos} {dest c : Pos}
    (h : initField obstacles dest c = .inf) : c ≠ dest ∧ c ∉ obstacles := by
  by_cases hc : c = dest
  · simp [initField, hc] at h
  · by_cases ho : c ∈ obstacles
    · simp [initField, hc, ho] at h
    · exact ⟨hc, ho⟩

theorem initField_nan {obstacles : Finset Pos} {dest c : Pos}
    (h : initField obstacles dest c = .nan) : c ≠ dest ∧ c ∈ obstacles := by
  by_cases hc : c = dest
  · simp [initField, hc] at h
  · by_cases ho : c ∈ obstacles
    · exact ⟨hc, ho⟩
    · simp [initField, hc, ho] at h

theorem initField_cases (obstacles : Finset Pos) (dest c : Pos) :
    initField obstacles dest c = .fin 0 ∨ initField obstacles dest c = .nan ∨
      initField obstacles dest c = .inf := by
  by_cases hc : c = dest
  · exact Or.inl (by simp [initField, hc])
  · by_cases ho : c ∈ obstacles
    · exact Or.inr (Or.inl (by simp [initField, hc, ho]))
    · exact Or.inr (Or.inr (by simp [initField, hc, ho]))

/-! ## Lemmas about `expand` -/

section Expand

variable (numRows numCols : Nat) (p : Pos)

theorem expand_preserves_noninf :
    ∀ (ds : List (Int × Int)) (f : Pos → Val) (c : Pos), f c ≠ .inf →
      (expand numRows numCols p ds f).1 c = f c := by
  intro ds
  induction ds with
  | nil => intro f c _; rfl
  | cons d ds ih =>
    intro f c hc
    by_cases hcond : (inBoundsB numRows numCols (addDelta p d) &&
        (f (addDelta p d)).isInf) = true
    · obtain ⟨hinb, hisinf⟩ : inBoundsB numRows numCols (addDelta p d) = true ∧
          (f (addDelta p d)).isInf = true := by simpa using hcond
      have hfin : f (addDelta p d) = .inf := Val.isInf_iff.mp hisinf
      have hne : c ≠ addDelta p d := fun he => hc (he ▸ hfin)
      simp only [expand, hcond, if_true]
      rw [ih _ c (by rwa [updateF_ne _ _ _ _ hne])]
      exact updateF_ne _ _ _ _ hne
    · simp only [expand, hcond, if_false]
      exact ih f c hc

theorem expand_not_mem :
    ∀ (ds : List (Int × Int)) (f : Pos → Val) (c : Pos),
      c ∉ (expand numRows numCols p ds f).2 →
      (expand numRows numCols p ds f).1 c = f c := by
  intro ds
  induction ds with
  | nil => intro f c _; rfl
  | cons d ds ih =>
    intro f c hc
    by_cases hcond : (inBoundsB numRows numCols (addDelta p d) &&
        (f (addDelta p d)).isInf) = true
    · simp only [expand, hcond, if_true] at hc ⊢
      simp only [List.mem_cons, not_or] at hc
      rw [ih _ c hc.2]
      exact updateF_ne _ _ _ _ hc.1
    · simp only [expand, hcond, if_false] at hc ⊢
      exact ih f c hc

theorem expand_p :
    ∀ (ds : List (Int × Int)) (f : Pos → Val),
      (∀ d ∈ ds, addDelta p d ≠ p) →
      (expand numRows numCols p ds f).1 p = f p := by
  intro ds
  induction ds with
  | nil => intro f _; rfl
  | cons d ds ih =>
    intro f hds
    by_cases hcond : (inBoundsB numRows numCols (addDelta p d) &&
        (f (addDelta p d)).isInf) = true
    · simp only [expand, hcond, if_true]
      rw [ih _ (fun d' hd' => hds d' (List.mem_cons_of_mem _ hd'))]
      exact updateF_ne _ _ _ _ (Ne.symm (hds d (List.mem_cons_self _ _)))
    · simp only [expand, hcond, if_false]
      exact ih f (fun d' hd' => hds d' (List.mem_cons_of_mem _ hd'))

theorem expand_mem :
    ∀ (ds : List (Int × Int)) (f : Pos → Val), f p ≠ .inf →
      (∀ d ∈ ds, addDelta p d ≠ p) →
      ∀ c ∈ (expand numRows numCols p ds f).2,
        inBoundsB numRows numCols c = true ∧ f c = .inf ∧
        (expand numRows numCols p ds f).1 c = (f p).succVal ∧
        ∃ d ∈ ds, c = addDelta p d := by
  intro ds
  induction ds with
  | nil => intro f _ _ c hc; simp [expand] at hc
  | cons d ds ih =>
    intro f hp hds c hc
    have hdsn : ∀ d' ∈ ds, addDelta p d' ≠ p :=
      fun d' hd' => hds d' (List.mem_cons_of_mem _ hd')
    have hdp : addDelta p d ≠ p := hds d (List.mem_cons_self _ _)
    by_cases hcond : (inBoundsB numRows numCols (addDelta p d) &&
        (f (addDelta p d)).isInf) = true
    · obtain ⟨hinb, hisinf⟩ : inBoundsB numRows numCols (addDelta p d) = true ∧
          (f (addDelta p d)).isInf = true := by simpa using hcond
      have hfin : f (addDelta p d) = .inf := Val.isInf_iff.mp hisinf
      simp only [expand, hcond, if_true] at hc ⊢
      set f' := updateF f (addDelta p d) (f p).succVal with hf'
      have hf'p : f' p = f p := updateF_ne _ _ _ _ (Ne.symm hdp)
      have hf'd : f' (addDelta p d) = (f p).succVal := updateF_self _ _ _
      have hdnotrest : addDelta p d ∉ (expand numRows numCols p ds f').2 := by
        intro hmem
        have hcontra := (ih f' (by rw [hf'p]; exact hp) hdsn _ hmem).2.1
        rw [hf'd] at hcontra
        exact Val.succVal_ne_inf hp hcontra
      rcases List.mem_cons.mp hc with hceq | hcrest
      · subst hceq
        refine ⟨hinb, hfin, ?_, ⟨d, List.mem_cons_self _ _, rfl⟩⟩
        rw [expand_not_mem numRows numCols p ds f' _ hdnotrest, hf'd]
      · obtain ⟨hinb', hinf, hval, d', hd', hcd'⟩ :=
          ih f' (by rw [hf'p]; exact hp) hdsn c hcrest
        have hcne : c ≠ addDelta p d := by
          intro he
          rw [he, hf'd] at hinf
          exact Val.succVal_ne_inf hp hinf
        refine ⟨hinb', ?_, ?_, ⟨d', List.mem_cons_of_mem _ hd', hcd'⟩⟩
        · rw [← updateF_ne f (addDelta p d) c (f p).succVal hcne]; exact hinf
        · rw [hval, hf'p]
    · simp only [expand, hcond, if_false] at hc ⊢
      obtain ⟨hinb, hinf, hval, d', hd', hcd'⟩ := ih f hp hdsn c hc
      exact ⟨hinb, hinf, hval, d', List.mem_cons_of_mem _ hd', hcd'⟩

theorem expand_nodup :
    ∀ (ds : List (Int × Int)) (f : Pos → Val), f p ≠ .inf →
      (∀ d ∈ ds, addDelta p d ≠ p) →
      ((expand numRows numCols p ds f).2).Nodup := by
  intro ds
  induction ds with
  | nil => intro f _ _; simp [expand]
  | cons d ds ih =>
    intro f hp hds
    have hdsn : ∀ d' ∈ ds, addDelta p d' ≠ p :=
      fun d' hd' => hds d' (List.mem_cons_of_mem _ hd')
    have hdp : addDelta p d ≠ p := hds d (List.mem_cons_self _ _)
    by_cases hcond : (inBoundsB numRows numCols (addDelta p d) &&
        (f (addDelta p d)).isInf) = true
    · simp only [expand, hcond, if_true]
      set f' := updateF f (addDelta p d) (f p).succVal with hf'
      have hf'p : f' p = f p := updateF_ne _ _ _ _ (Ne.symm hdp)
      have hf'd : f' (addDelta p d) = (f p).succVal := updateF_self _ _ _
      refine List.Nodup.cons ?_ (ih f' (by rw [hf'p]; exact hp) hdsn)
      intro hmem
      have hcontra := (expand_mem numRows numCols p ds f'
        (by rw [hf'p]; exact hp) hdsn _ hmem).2.1
      rw [hf'd] at hcontra
      exact Val.succVal_ne_inf hp hcontra
    · simp only [expand, hcond, if_false]
      exact ih f hp hdsn

theorem expand_complete :
    ∀ (ds : List (Int × Int)) (f : Pos → Val) (d : Int × Int), d ∈ ds →
      inBoundsB numRows numCols (addDelta p d) = true →
      f (addDelta p d) = .inf →
      addDelta p d ∈ (expand numRows numCols p ds f).2 := by
  intro ds
  induction ds with
  | nil => intro f d hd _ _; simp at hd
  | cons d0 ds ih =>
    intro f d hd hinb hinf
    by_cases hcond : (inBoundsB numRows numCols (addDelta p d0) &&
        (f (addDelta p d0)).isInf) = true
    · simp only [expand, hcond, if_true]
      rcases List.mem_cons.mp hd with hdeq | hdrest
      · subst hdeq; exact List.mem_cons_self _ _
      · by_cases hsame : addDelta p d = addDelta p d0
        · rw [hsame]; exact List.mem_cons_self _ _
        · refine List.mem_cons_of_mem _ (ih _ d hdrest hinb ?_)
          rw [updateF_ne _ _ _ _ hsame]; exact hinf
    · rcases List.mem_cons.mp hd with hdeq | hdrest
      · subst hdeq
        exfalso
        apply hcond
        simp only [Bool.and_eq_true]
        exact ⟨hinb, by rw [hinf]; rfl⟩
      · simp only [expand, hcond, if_false]
        exact ih f d hdrest hinb hinf

end Expand

/-! ## The BFS loop invariant

The invariant bundles the facts maintained by every iteration of the
`while queue:` loop: queued cells carry finite values, finite values are
sound reachability bounds, non-finite cells still hold their initial
value, finite cells are queued or fully expanded, adjacent finite values
differ by at most one, all finite values are at most one above the value
at the queue head, and the queue values are non-decreasing.  The `log`
facts instrument the enqueue operations. -/

structure Inv (obstacles : Finset Pos) (dest : Pos) (numRows numCols : Nat)
    (s : BfsState) : Prop where
  qFin : ∀ c ∈ s.q, ∃ n, s.f c = .fin n
  sound : ∀ c n, s.f c = .fin n →
    ReachIn obstacles dest numRows numCols n c ∧
      inBoundsB numRows numCols c = true
  nonfin : ∀ c, (∀ n, s.f c ≠ .fin n) → s.f c = initField obstacles dest c
  expanded : ∀ c n, s.f c = .fin n → c ∈ s.q ∨
    ∀ d ∈ deltas, inBoundsB numRows numCols (addDelta c d) = true →
      s.f (addDelta c d) ≠ .inf
  consist : ∀ c n p m, s.f c = .fin n → s.f p = .fin m →
    adjacent p c → n ≤ m + 1
  maxFin : ∀ c n hd h, s.f c = .fin n → s.q.head? = some hd →
    s.f hd = .fin h → n ≤ h + 1
  qSorted : s.q.Pairwise
    (fun a b => ∀ x y, s.f a = .fin x → s.f b = .fin y → x ≤ y)
  logNodup : s.log.Nodup
  logFin : ∀ c ∈ s.log, ∃ n, s.f c = .fin n
  logInB : ∀ c ∈ s.log, inBoundsB numRows numCols c = true

theorem Inv_init (obstacles : Finset Pos) (dest : Pos) (numRows numCols : Nat)
    (hdest : inBoundsB numRows numCols dest = true) :
    Inv obstacles dest numRows numCols (initState obstacles dest) := by
  have hreach0 : ReachIn obstacles dest numRows numCols 0 dest := by
    simp [ReachIn, reachInB]
  refine ⟨?_, ?_, ?_, ?_, ?_, ?_, ?_, ?_, ?_, ?_⟩
  · intro c hc
    simp only [initState, List.mem_singleton] at hc
    exact ⟨0, by rw [hc]; exact initField_dest _ _⟩
  · intro c n hc
    obtain ⟨hcd, hn0⟩ := initField_fin hc
    subst hcd; subst hn0
    exact ⟨hreach0, hdest⟩
  · intro c _; rfl
  · intro c n hc
    obtain ⟨hcd, _⟩ := initField_fin hc
    exact Or.inl (by simp [initState, hcd])
  · intro c n p m hc _ _
    obtain ⟨_, hn0⟩ := initField_fin hc
    omega
  · intro c n hd h hc _ _
    obtain ⟨_, hn0⟩ := initField_fin hc
    omega
  · simp [initState]
  · simp [initState]
  · intro c hc
    simp only [initState, List.mem_singleton] at hc
    exact ⟨0, by rw [hc]; exact initField_dest _ _⟩
  · intro c hc
    simp only [initState, List.mem_singleton] at hc
    rw [hc]; exact hdest

theorem Inv_step {obstacles : Finset Pos} {dest : Pos} {numRows numCols : Nat}
    {s : BfsState} (hs : Inv obstacles dest numRows numCols s) :
    Inv obstacles dest numRows numCols (bfsStep numRows numCols s) := by
  rcases hq : s.q with _ | ⟨p, rest⟩
  · have hid : bfsStep numRows numCols s = s := by
      simp [bfsStep, hq]
    rw [hid]; exact hs
  · obtain ⟨h, hph⟩ := hs.qFin p (by rw [hq]; exact List.mem_cons_self _ _)
    have hpni : s.f p ≠ .inf := by rw [hph]; simp
    have hdsp : ∀ d ∈ deltas, addDelta p d ≠ p :=
      fun d hd => addDelta_ne_self hd p
    rcases hexp : expand numRows numCols p deltas s.f with ⟨F, N⟩
    have hstep : bfsStep numRows numCols s = ⟨F, rest ++ N, s.log ++ N⟩ := by
      simp [bfsStep, hq, hexp]
    have memNew : ∀ c ∈ N, inBoundsB numRows numCols c = true ∧
        s.f c = .inf ∧ F c = .fin (h + 1) ∧
        ∃ d ∈ deltas, c = addDelta p d := by
      intro c hc
      have h0 := expand_mem numRows numCols p deltas s.f hpni hdsp c
        (by rw [hexp]; exact hc)
      rw [hexp] at h0
      have h3 : F c = (s.f p).succVal := h0.2.2.1
      refine ⟨h0.1, h0.2.1, ?_, h0.2.2.2⟩
      rw [h3, hph]; rfl
    have notMem : ∀ c, c ∉ N → F c = s.f c := by
      intro c hc
      have h0 := expand_not_mem numRows numCols p deltas s.f c
        (by rw [hexp]; exact hc)
      rw [hexp] at h0
      exact h0
    have preserve : ∀ c, s.f c ≠ .inf → F c = s.f c := by
      intro c hc
      have h0 := expand_preserves_noninf numRows numCols p deltas s.f c hc
      rw [hexp] at h0
      exact h0
    have nodupNew : N.Nodup := by
      have h0 := expand_nodup numRows numCols p deltas s.f hpni hdsp
      rw [hexp] at h0
      exact h0
    have completeNew : ∀ d ∈ deltas,
        inBoundsB numRows numCols (addDelta p d) = true →
        s.f (addDelta p d) = .inf → addDelta p d ∈ N := by
      intro d hd h1 h2
      have h0 := expand_complete numRows numCols p deltas s.f d hd h1 h2
      rw [hexp] at h0
      exact h0
    have oldFin : ∀ c n, s.f c = .fin n → F c = .fin n := by
      intro c n hc
      rw [preserve c (by rw [hc]; simp)]; exact hc
    have newOrOld : ∀ c n, F c = .fin n →
        (c ∈ N ∧ n = h + 1 ∧ s.f c = .inf) ∨ (c ∉ N ∧ s.f c = .fin n) := by
      intro c n hc
      by_cases hcn : c ∈ N
      · obtain ⟨_, h2, h3, _⟩ := memNew c hcn
        have hn : n = h + 1 := by
          have hinj := hc.symm.trans h3
          injection hinj
        exact Or.inl ⟨hcn, hn, h2⟩
      · exact Or.inr ⟨hcn, (notMem c hcn).symm.trans hc⟩
    have headMin : ∀ b ∈ s.q, ∀ y, s.f b = .fin y → h ≤ y := by
      intro b hb y hy
      have hpair := hs.qSorted
      rw [hq] at hpair hb
      rcases List.mem_cons.mp hb with hbp | hbr
      · subst hbp
        have heq : h = y := by
          have hinj := hph.symm.trans hy
          injection hinj
        omega
      · exact (List.pairwise_cons.mp hpair).1 b hbr h y hph hy
    have allFinLe : ∀ c n, F c = .fin n → n ≤ h + 1 := by
      intro c n hc
      rcases newOrOld c n hc with ⟨_, hn, _⟩ | ⟨_, hold⟩
      · omega
      · exact hs.maxFin c n p h hold (by rw [hq]; rfl) hph
    have valLower : ∀ a ∈ rest ++ N, ∀ x, F a = .fin x → h ≤ x := by
      intro a ha x hx
      rcases List.mem_append.mp ha with har | han
      · rcases newOrOld a x hx with ⟨_, hn, _⟩ | ⟨_, hold⟩
        · omega
        · exact headMin a (by rw [hq]; exact List.mem_cons_of_mem _ har) x hold
      · obtain ⟨_, _, h3, _⟩ := memNew a han
        have hxeq : x = h + 1 := by
          have hinj := hx.symm.trans h3
          injection hinj
        omega
    rw [hstep]
    refine ⟨?_, ?_, ?_, ?_, ?_, ?_, ?_, ?_, ?_, ?_⟩ <;> dsimp only
    · intro c hc
      rcases List.mem_append.mp hc with hcr | hcn
      · obtain ⟨n, hn⟩ := hs.qFin c
          (by rw [hq]; exact List.mem_cons_of_mem _ hcr)
        exact ⟨n, oldFin c n hn⟩
      · exact ⟨h + 1, (memNew c hcn).2.2.1⟩
    · intro c n hc
      rcases newOrOld c n hc with ⟨hcn, hn, hinf⟩ | ⟨_, hold⟩
      · obtain ⟨hinb, _, _, d, hd, hcd⟩ := memNew c hcn
        have hinit : initField obstacles dest c = .inf := by
          have hnf := hs.nonfin c
            (by intro m hm; rw [hm] at hinf; exact Val.noConfusion hinf)
          exact hnf.symm.trans hinf
        obtain ⟨hcdst, hcobs⟩ := initField_inf hinit
        obtain ⟨d', hd', hinv⟩ := deltas_symm hd
        have hpc : addDelta c d' = p := by
          rw [hcd]; exact hinv p
        have hreachp : reachInB obstacles dest numRows numCols h p = true :=
          (hs.sound p h hph).1
        subst hn
        refine ⟨?_, hinb⟩
        show reachInB obstacles dest numRows numCols (h + 1) c = true
        simp only [reachInB, Bool.or_eq_true, Bool.and_eq_true,
          List.any_eq_true, Bool.not_eq_true', decide_eq_false_iff_not]
        exact Or.inr ⟨⟨hinb, hcobs⟩, d', hd', by rwa [hpc]⟩
      · exact hs.sound c n hold
    · intro c hc
      have hcnotN : c ∉ N := fun hcn => hc (h + 1) (memNew c hcn).2.2.1
      rw [notMem c hcnotN]
      exact hs.nonfin c
        (fun n hn => hc n (by rw [notMem c hcnotN]; exact hn))
    · intro c n hc
      rcases newOrOld c n hc with ⟨hcn, _, _⟩ | ⟨_, hold⟩
      · exact Or.inl (List.mem_append.mpr (Or.inr hcn))
      · rcases hs.expanded c n hold with hcq | hexp2
        · rw [hq] at hcq
          rcases List.mem_cons.mp hcq with hcp | hcr
          · subst hcp
            refine Or.inr ?_
            intro d hd hinb
            by_cases hinf : s.f (addDelta c d) = .inf
            · have hfn := (memNew _ (completeNew d hd hinb hinf)).2.2.1
              rw [hfn]; simp
            · rw [preserve _ hinf]; exact hinf
          · exact Or.inl (List.mem_append.mpr (Or.inl hcr))
        · refine Or.inr ?_
          intro d hd hinb
          have hni := hexp2 d hd hinb
          rw [preserve _ hni]; exact hni
    · intro c n p' m hc hp' hadj
      rcases newOrOld c n hc with ⟨hcn, hn, hcinf⟩ | ⟨_, holdc⟩
      · rcases newOrOld p' m hp' with ⟨_, hm, _⟩ | ⟨_, holdp⟩
        · omega
        · rcases hs.expanded p' m holdp with hp'q | hexp2
          · have := headMin p' hp'q m holdp
            omega
          · exfalso
            obtain ⟨d, hd, hcd⟩ := hadj
            obtain ⟨hinb, _, _, _⟩ := memNew c hcn
            exact hexp2 d hd (hcd ▸ hinb) (hcd ▸ hcinf)
      · rcases newOrOld p' m hp' with ⟨_, hm, _⟩ | ⟨_, holdp⟩
        · have := allFinLe c n hc
          omega
        · exact hs.consist c n p' m holdc holdp hadj
    · intro c n hd' h' hc hhead hfhd
      have hmem : hd' ∈ rest ++ N :=
        List.mem_of_mem_head? (by rw [Option.mem_def]; exact hhead)
      have hge : h ≤ h' := valLower hd' hmem h' hfhd
      have hle : n ≤ h + 1 := allFinLe c n hc
      omega
    · rw [List.pairwise_append]
      refine ⟨?_, ?_, ?_⟩
      · have htail : rest.Pairwise
            (fun a b => ∀ x y, s.f a = .fin x → s.f b = .fin y → x ≤ y) :=
          (List.pairwise_cons.mp (hq ▸ hs.qSorted)).2
        refine htail.imp_of_mem ?_
        intro a b ha hb hab x y hax hby
        obtain ⟨xa, hxa⟩ := hs.qFin a
          (by rw [hq]; exact List.mem_cons_of_mem _ ha)
        obtain ⟨yb, hyb⟩ := hs.qFin b
          (by rw [hq]; exact List.mem_cons_of_mem _ hb)
        have h1 : xa = x := by
          have hinj := (oldFin a xa hxa).symm.trans hax
          injection hinj
        have h2 : yb = y := by
          have hinj := (oldFin b yb hyb).symm.trans hby
          injection hinj
        subst h1; subst h2
        exact hab xa yb hxa hyb
      · refine nodupNew.imp_of_mem ?_
        intro a b ha hb _ x y hax hby
        have h1 : x = h + 1 := by
          have hinj := hax.symm.trans (memNew a ha).2.2.1
          injection hinj
        have h2 : y = h + 1 := by
          have hinj := hby.symm.trans (memNew b hb).2.2.1
          injection hinj
        omega
      · intro a ha b hb x y hax hby
        have h1 : y = h + 1 := by
          have hinj := hby.symm.trans (memNew b hb).2.2.1
          injection hinj
        have h2 : x ≤ h + 1 := allFinLe a x hax
        omega
    · rw [List.nodup_append]
      refine ⟨hs.logNodup, nodupNew, ?_⟩
      intro a ha han
      obtain ⟨n, hn⟩ := hs.logFin a ha
      have hinf := (memNew a han).2.1
      rw [hn] at hinf
      exact Val.noConfusion hinf
    · intro c hc
      rcases List.mem_append.mp hc with hcl | hcn
      · obtain ⟨n, hn⟩ := hs.logFin c hcl
        exact ⟨n, oldFin c n hn⟩
      · exact ⟨h + 1, (memNew c hcn).2.2.1⟩
    · intro c hc
      rcases List.mem_append.mp hc with hcl | hcn
      · exact hs.logInB c hcl
      · exact (memNew c hcn).1

/-! ## Running the loop: preservation, monotonicity, termination -/

theorem bfsRun_q_nil {numRows numCols : Nat} {s : BfsState} (h : s.q = []) :
    ∀ n, bfsRun numRows numCols n s = s
  | 0 => rfl
  | n + 1 => by simp [bfsRun, h]

theorem Inv_bfsRun {obstacles : Finset Pos} {dest : Pos}
    {numRows numCols : Nat} (n : Nat) :
    ∀ {s : BfsState}, Inv obstacles dest numRows numCols s →
      Inv obstacles dest numRows numCols (bfsRun numRows numCols n s) := by
  induction n with
  | zero => intro s hs; exact hs
  | succ n ih =>
    intro s hs
    rcases hq : s.q with _ | ⟨p, rest⟩
    · rw [bfsRun_q_nil hq]; exact hs
    · simp only [bfsRun, hq]
      exact ih (Inv_step hs)

theorem bfsStep_noninf {numRows numCols : Nat} {s : BfsState} {c : Pos}
    (hc : s.f c ≠ .inf) : (bfsStep numRows numCols s).f c = s.f c := by
  rcases hq : s.q with _ | ⟨p, rest⟩
  · simp [bfsStep, hq]
  · simp only [bfsStep, hq]
    exact expand_preserves_noninf numRows numCols p deltas s.f c hc

theorem bfsRun_noninf {numRows numCols : Nat} (n : Nat) :
    ∀ {s : BfsState} {c : Pos}, s.f c ≠ .inf →
      (bfsRun numRows numCols n s).f c = s.f c := by
  induction n with
  | zero => intro s c _; rfl
  | succ n ih =>
    intro s c hc
    rcases hq : s.q with _ | ⟨p, rest⟩
    · rw [bfsRun_q_nil hq]
    · simp only [bfsRun, hq]
      rw [ih (by rw [bfsStep_noninf hc]; exact hc)]
      exact bfsStep_noninf hc

theorem bfsRun_add (numRows numCols : Nat) :
    ∀ (a b : Nat) (s : BfsState),
      bfsRun numRows numCols (a + b) s =
        bfsRun numRows numCols b (bfsRun numRows numCols a s) := by
  intro a
  induction a with
  | zero => intro b s; rw [Nat.zero_add]; rfl
  | succ a ih =>
    intro b s
    rcases hq : s.q with _ | ⟨p, rest⟩
    · rw [bfsRun_q_nil hq, bfsRun_q_nil hq, bfsRun_q_nil hq]
    · have h1 : a + 1 + b = (a + b) + 1 := by omega
      rw [h1]
      simp only [bfsRun, hq]
      exact ih b (bfsStep numRows numCols s)

/-- The in-bounds cells of the grid, as a finite set. -/
def boundsFinset (numRows numCols : Nat) : Finset Pos :=
  (Finset.range numRows ×ˢ Finset.range numCols).image
    (fun ab => ((ab.1 : Int), (ab.2 : Int)))

theorem mem_boundsFinset {numRows numCols : Nat} {c : Pos}
    (hc : inBoundsB numRows numCols c = true) :
    c ∈ boundsFinset numRows numCols := by
  simp only [inBoundsB, Bool.and_eq_true, decide_eq_true_eq] at hc
  obtain ⟨⟨⟨h1, h2⟩, h3⟩, h4⟩ := hc
  refine Finset.mem_image.mpr ⟨(c.1.toNat, c.2.toNat), ?_, ?_⟩
  · rw [Finset.mem_product]
    exact ⟨Finset.mem_range.mpr (by omega), Finset.mem_range.mpr (by omega)⟩
  · rw [Prod.ext_iff]
    constructor <;> simp <;> omega

theorem boundsFinset_card (numRows numCols : Nat) :
    (boundsFinset numRows numCols).card ≤ numRows * numCols := by
  calc (boundsFinset numRows numCols).card
      ≤ (Finset.range numRows ×ˢ Finset.range numCols).card :=
        Finset.card_image_le
    _ = numRows * numCols := by
        rw [Finset.card_product, Finset.card_range, Finset.card_range]

/-- Number of in-bounds cells still `inf`: the termination measure core. -/
def infCount (numRows numCols : Nat) (f : Pos → Val) : Nat :=
  ((boundsFinset numRows numCols).filter (fun c => f c = .inf)).card

theorem infCount_le (numRows numCols : Nat) (f : Pos → Val) :
    infCount numRows numCols f ≤ numRows * numCols :=
  le_trans (Finset.card_filter_le _ _) (boundsFinset_card numRows numCols)

theorem bfsStep_measure {obstacles : Finset Pos} {dest : Pos}
    {numRows numCols : Nat} {s : BfsState}
    (hs : Inv obstacles dest numRows numCols s) (hq : s.q ≠ []) :
    5 * infCount numRows numCols (bfsStep numRows numCols s).f +
      (bfsStep numRows numCols s).q.length + 1 ≤
    5 * infCount numRows numCols s.f + s.q.length := by
  rcases hql : s.q with _ | ⟨p, rest⟩
  · exact absurd hql hq
  · obtain ⟨h, hph⟩ := hs.qFin p (by rw [hql]; exact List.mem_cons_self _ _)
    have hpni : s.f p ≠ .inf := by rw [hph]; simp
    have hdsp : ∀ d ∈ deltas, addDelta p d ≠ p :=
      fun d hd => addDelta_ne_self hd p
    rcases hexp : expand numRows numCols p deltas s.f with ⟨F, N⟩
    have hstep : bfsStep numRows numCols s = ⟨F, rest ++ N, s.log ++ N⟩ := by
      simp [bfsStep, hql, hexp]
    have memNew : ∀ c ∈ N, inBoundsB numRows numCols c = true ∧
        s.f c = .inf ∧ F c = .fin (h + 1) := by
      intro c hc
      have h0 := expand_mem numRows numCols p deltas s.f hpni hdsp c
        (by rw [hexp]; exact hc)
      rw [hexp] at h0
      have h3 : F c = (s.f p).succVal := h0.2.2.1
      exact ⟨h0.1, h0.2.1, by rw [h3, hph]; rfl⟩
    have notMem : ∀ c, c ∉ N → F c = s.f c := by
      intro c hc
      have h0 := expand_not_mem numRows numCols p deltas s.f c
        (by rw [hexp]; exact hc)
      rw [hexp] at h0
      exact h0
    have nodupNew : N.Nodup := by
      have h0 := expand_nodup numRows numCols p deltas s.f hpni hdsp
      rw [hexp] at h0
      exact h0
    have hsub : N.toFinset ⊆
        (boundsFinset numRows numCols).filter (fun c => s.f c = .inf) := by
      intro c hc
      rw [List.mem_toFinset] at hc
      obtain ⟨h1, h2, _⟩ := memNew c hc
      exact Finset.mem_filter.mpr ⟨mem_boundsFinset h1, h2⟩
    have hfeq : (boundsFinset numRows numCols).filter (fun c => F c = .inf) =
        ((boundsFinset numRows numCols).filter (fun c => s.f c = .inf)) \
          N.toFinset := by
      ext c
      simp only [Finset.mem_filter, Finset.mem_sdiff, List.mem_toFinset]
      constructor
      · rintro ⟨hb, hFc⟩
        have hcnot : c ∉ N := by
          intro hcn
          exact Val.noConfusion ((memNew c hcn).2.2.symm.trans hFc)
        exact ⟨⟨hb, by rw [← notMem c hcnot]; exact hFc⟩, hcnot⟩
      · rintro ⟨⟨hb, hsc⟩, hcnot⟩
        exact ⟨hb, by rw [notMem c hcnot]; exact hsc⟩
    have hcard : infCount numRows numCols F =
        infCount numRows numCols s.f - N.length := by
      rw [infCount, infCount, hfeq, Finset.card_sdiff hsub,
        List.toFinset_card_of_nodup nodupNew]
    have hNle : N.length ≤ infCount numRows numCols s.f := by
      rw [← List.toFinset_card_of_nodup nodupNew]
      exact Finset.card_le_card hsub
    rw [hstep]
    show 5 * infCount numRows numCols F + (rest ++ N).length + 1 ≤
      5 * infCount numRows numCols s.f + (p :: rest).length
    rw [hcard, List.length_append, List.length_cons]
    omega

theorem bfsRun_drains {obstacles : Finset Pos} {dest : Pos}
    {numRows numCols : Nat} :
    ∀ (n : Nat) (s : BfsState), Inv obstacles dest numRows numCols s →
      5 * infCount numRows numCols s.f + s.q.length ≤ n →
      (bfsRun numRows numCols n s).q = [] := by
  intro n
  induction n with
  | zero =>
    intro s _ hm
    have hlen : s.q.length = 0 := by omega
    exact List.length_eq_zero.mp hlen
  | succ n ih =>
    intro s hs hm
    rcases hq : s.q with _ | ⟨p, rest⟩
    · rw [bfsRun_q_nil hq]; exact hq
    · simp only [bfsRun, hq]
      apply ih _ (Inv_step hs)
      have hd := bfsStep_measure hs (by rw [hq]; simp)
      omega

theorem final_state (obstacles : Finset Pos) (dest : Pos)
    (numRows numCols : Nat)
    (hdest : inBoundsB numRows numCols dest = true) :
    (bfsRun numRows numCols (bfsFuel numRows numCols)
      (initState obstacles dest)).q = [] ∧
    Inv obstacles dest numRows numCols
      (bfsRun numRows numCols (bfsFuel numRows numCols)
        (initState obstacles dest)) := by
  have hInv := Inv_init obstacles dest numRows numCols hdest
  have hm : 5 * infCount numRows numCols (initState obstacles dest).f +
      (initState obstacles dest).q.length ≤ bfsFuel numRows numCols := by
    have h1 := infCount_le numRows numCols (initState obstacles dest).f
    have h2 : (initState obstacles dest).q.length = 1 := rfl
    rw [bfsFuel]
    omega
  exact ⟨bfsRun_drains _ _ hInv hm, Inv_bfsRun _ hInv⟩

/-! ## Properties of the completed field -/

theorem grassfireField_dest (obstacles : Finset Pos) (dest : Pos)
    (numRows numCols : Nat) :
    grassfireField obstacles dest numRows numCols dest = .fin 0 := by
  have h0 : (initState obstacles dest).f dest = .fin 0 := initField_dest _ _
  rw [grassfireField, bfsRun_noninf _ (by rw [h0]; simp), h0]

theorem grassfireField_sound {obstacles : Finset Pos} {dest : Pos}
    {numRows numCols : Nat}
    (hdest : inBoundsB numRows numCols dest = true) {c : Pos} {n : Nat}
    (h : grassfireField obstacles dest numRows numCols c = .fin n) :
    ReachIn obstacles dest numRows numCols n c ∧
      inBoundsB numRows numCols c = true :=
  (final_state obstacles dest numRows numCols hdest).2.sound c n h

theorem grassfireField_nonfin {obstacles : Finset Pos} {dest : Pos}
    {numRows numCols : Nat}
    (hdest : inBoundsB numRows numCols dest = true) {c : Pos}
    (h : ∀ n, grassfireField obstacles dest numRows numCols c ≠ .fin n) :
    grassfireField obstacles dest numRows numCols c =
      initField obstacles dest c :=
  (final_state obstacles dest numRows numCols hdest).2.nonfin c h

theorem grassfireField_consist {obstacles : Finset Pos} {dest : Pos}
    {numRows numCols : Nat}
    (hdest : inBoundsB numRows numCols dest = true) {c p : Pos} {n m : Nat}
    (h1 : grassfireField obstacles dest numRows numCols c = .fin n)
    (h2 : grassfireField obstacles dest numRows numCols p = .fin m)
    (hadj : adjacent p c) : n ≤ m + 1 :=
  (final_state obstacles dest numRows numCols hdest).2.consist c n p m h1 h2 hadj

theorem grassfireField_complete {obstacles : Finset Pos} {dest : Pos}
    {numRows numCols : Nat}
    (hdest : inBoundsB numRows numCols dest = true) :
    ∀ (n : Nat) (c : Pos), ReachIn obstacles dest numRows numCols n c →
      ∃ k ≤ n, grassfireField obstacles dest numRows numCols c = .fin k := by
  obtain ⟨hqe, hInv⟩ := final_state obstacles dest numRows numCols hdest
  intro n
  induction n with
  | zero =>
    intro c hc
    have hcd : c = dest := by
      simpa [ReachIn, reachInB] using hc
    subst hcd
    exact ⟨0, le_refl 0, grassfireField_dest _ _ _ _⟩
  | succ n ih =>
    intro c hc
    rw [ReachIn, reachInB] at hc
    simp only [Bool.or_eq_true, Bool.and_eq_true, List.any_eq_true,
      Bool.not_eq_true', decide_eq_false_iff_not] at hc
    rcases hc with hc | ⟨⟨hinb, hobst⟩, d, hd, hreach⟩
    · obtain ⟨k, hk, hfk⟩ := ih c hc
      exact ⟨k, le_trans hk (Nat.le_succ n), hfk⟩
    · obtain ⟨m, hm, hfm⟩ := ih (addDelta c d) hreach
      rcases hInv.expanded (addDelta c d) m hfm with hmem | hexp
      · rw [hqe] at hmem
        exact absurd hmem (List.not_mem_nil _)
      · obtain ⟨d', hd', hinv⟩ := deltas_symm hd
        have hcc : addDelta (addDelta c d) d' = c := hinv c
        have hninf := hexp d' hd' (by rw [hcc]; exact hinb)
        rw [hcc] at hninf
        rcases hv : grassfireField obstacles dest numRows numCols c with _ | _ | k
        · exact absurd hv hninf
        · exfalso
          have hni : ∀ j,
              grassfireField obstacles dest numRows numCols c ≠ .fin j := by
            intro j hj
            rw [hv] at hj
            exact Val.noConfusion hj
          have hinit := grassfireField_nonfin hdest hni
          rw [hv] at hinit
          exact hobst (initField_nan hinit.symm).2
        · refine ⟨k, ?_, rfl⟩
          have hcons := hInv.consist c k (addDelta c d) m hv hfm
            (adjacent_of_delta hd)
          omega

theorem grassfireField_least {obstacles : Finset Pos} {dest : Pos}
    {numRows numCols : Nat}
    (hdest : inBoundsB numRows numCols dest = true) {c : Pos} {n : Nat}
    (h : grassfireField obstacles dest numRows numCols c = .fin n) :
    ∀ m, ReachIn obstacles dest numRows numCols m c → n ≤ m := by
  intro m hm
  obtain ⟨k, hk, hfk⟩ := grassfireField_complete hdest m c hm
  have hnk : n = k := by
    have hinj := h.symm.trans hfk
    injection hinj
  omega

theorem reachIn_succ {obstacles : Finset Pos} {dest : Pos}
    {numRows numCols : Nat} {n : Nat} {c : Pos}
    (h : ReachIn obstacles dest numRows numCols n c) :
    ReachIn obstacles dest numRows numCols (n + 1) c := by
  rw [ReachIn] at h ⊢
  rw [reachInB]
  simp [h]

theorem reachIn_mono {obstacles : Finset Pos} {dest : Pos}
    {numRows numCols : Nat} {n m : Nat} {c : Pos}
    (h : ReachIn obstacles dest numRows numCols n c) (hnm : n ≤ m) :
    ReachIn obstacles dest numRows numCols m c := by
  induction hnm with
  | refl => exact h
  | step _ ih => exact reachIn_succ ih

/-! ## Claim theorems -/

/-- **C1**: for every grid shape, obstacle set and in-bounds destination,
the field computed by `grassfire_algorithm` assigns to every in-bounds
cell reachable from the destination through non-obstacle cells its true
shortest orthogonal-step distance (the least `n` with `ReachIn n c`), and
every unreachable or blocked cell keeps a non-finite sentinel (`inf` or
`nan`). -/
theorem grassfire_field_correct (numRows numCols : Nat)
    (obstacles : Finset Pos) (dest : Pos)
    (hdest : inBoundsB numRows numCols dest = true)
    (c : Pos) (hc : inBoundsB numRows numCols c = true) :
    (∀ n, ReachIn obstacles dest numRows numCols n c →
      (∀ m, ReachIn obstacles dest numRows numCols m c → n ≤ m) →
      grassfireField obstacles dest numRows numCols c = .fin n) ∧
    ((∀ n, ¬ ReachIn obstacles dest numRows numCols n c) →
      grassfireField obstacles dest numRows numCols c = .inf ∨
      grassfireField obstacles dest numRows numCols c = .nan) := by
  constructor
  · intro n hn hleast
    obtain ⟨k, hk, hfk⟩ := grassfireField_complete hdest n c hn
    have hge := hleast k (grassfireField_sound hdest hfk).1
    have hkn : k = n := le_antisymm hk hge
    rw [← hkn]; exact hfk
  · intro hnone
    have hni : ∀ j, grassfireField obstacles dest numRows numCols c ≠ .fin j :=
      fun j hj => hnone j (grassfireField_sound hdest hj).1
    have hinit := grassfireField_nonfin hdest hni
    rcases initField_cases obstacles dest c with h0 | h0 | h0
    · exact absurd (hinit.trans h0) (hni 0)
    · exact Or.inr (hinit.trans h0)
    · exact Or.inl (hinit.trans h0)

theorem grassfire_field_correct_witness :
    grassfireField ∅ ((0 : Int), (0 : Int)) 2 2 ((1 : Int), (1 : Int)) =
      .fin 2 :=
  (grassfire_field_correct 2 2 ∅ (0, 0) (by decide) (1, 1) (by decide)).1 2
    (by decide)
    (fun m hm => by
      by_contra hlt
      push_neg at hlt
      have h1 : m ≤ 1 := by omega
      exact absurd (reachIn_mono hm h1) (by decide))

/-- **C4**: for every grid shape, obstacle set and in-bounds destination —
also when the destination itself is listed as an obstacle — the computed
field maps the destination to `0`, because obstacles are marked first and
the destination is then forced to `0`. -/
theorem grassfire_dest_zero (numRows numCols : Nat)
    (obstacles : Finset Pos) (dest : Pos)
    (hdest : inBoundsB numRows numCols dest = true) :
    grassfireField obstacles dest numRows numCols dest = .fin 0 :=
  grassfireField_dest obstacles dest numRows numCols

theorem grassfire_dest_zero_witness :
    ((1 : Int), (1 : Int)) ∈ ({((1 : Int), (1 : Int))} : Finset Pos) ∧
    grassfireField {((1 : Int), (1 : Int))} (1, 1) 8 8 (1, 1) = .fin 0 :=
  ⟨by decide, grassfire_dest_zero 8 8 {((1 : Int), (1 : Int))} (1, 1)
    (by decide)⟩

/-- **C8**: during the expansion, a cell holding a non-`inf` value (blocked
`nan` or a finite distance) is never overwritten at any later iteration;
the enqueue log never repeats a cell; the whole run performs at most
`numRows * numCols` enqueue operations; and the loop terminates — with
`bfsFuel` iterations the queue is empty and further iterations change
nothing. -/
theorem grassfire_bfs_resources (numRows numCols : Nat)
    (obstacles : Finset Pos) (dest : Pos)
    (hdest : inBoundsB numRows numCols dest = true) :
    (∀ k j c,
      (bfsRun numRows numCols k (initState obstacles dest)).f c ≠ .inf →
      (bfsRun numRows numCols (k + j) (initState obstacles dest)).f c =
        (bfsRun numRows numCols k (initState obstacles dest)).f c) ∧
    (∀ k,
      (bfsRun numRows numCols k (initState obstacles dest)).log.Nodup) ∧
    ((bfsRun numRows numCols (bfsFuel numRows numCols)
        (initState obstacles dest)).log.length ≤ numRows * numCols) ∧
    ((bfsRun numRows numCols (bfsFuel numRows numCols)
        (initState obstacles dest)).q = []) ∧
    (∀ j, bfsRun numRows numCols (bfsFuel numRows numCols + j)
        (initState obstacles dest) =
      bfsRun numRows numCols (bfsFuel numRows numCols)
        (initState obstacles dest)) := by
  obtain ⟨hqe, hInv⟩ := final_state obstacles dest numRows numCols hdest
  refine ⟨?_, ?_, ?_, hqe, ?_⟩
  · intro k j c hk
    rw [bfsRun_add]
    exact bfsRun_noninf j hk
  · intro k
    exact (Inv_bfsRun k (Inv_init obstacles dest numRows numCols hdest)).logNodup
  · calc (bfsRun numRows numCols (bfsFuel numRows numCols)
          (initState obstacles dest)).log.length
        = (bfsRun numRows numCols (bfsFuel numRows numCols)
          (initState obstacles dest)).log.toFinset.card :=
          (List.toFinset_card_of_nodup hInv.logNodup).symm
      _ ≤ (boundsFinset numRows numCols).card :=
          Finset.card_le_card (fun c hc =>
            mem_boundsFinset (hInv.logInB c (List.mem_toFinset.mp hc)))
      _ ≤ numRows * numCols := boundsFinset_card _ _
  · intro j
    rw [bfsRun_add]
    exact bfsRun_q_nil hqe j

theorem grassfire_bfs_resources_witness :
    ((bfsRun 8 8 (bfsFuel 8 8) (initState ∅ ((7 : Int), (6 : Int)))).q = []) ∧
    ((bfsRun 8 8 (bfsFuel 8 8)
        (initState ∅ ((7 : Int), (6 : Int)))).log.length ≤ 8 * 8) :=
  ⟨(grassfire_bfs_resources 8 8 ∅ (7, 6) (by decide)).2.2.2.1,
   (grassfire_bfs_resources 8 8 ∅ (7, 6) (by decide)).2.2.1⟩

/-- **C9**: in every computed field all finite values are natural numbers
(hence non-negative), and every in-bounds cell other than the destination
holding a finite value `k` has `k = j + 1` for some `j` together with an
in-bounds orthogonal neighbour whose field value is exactly `fin j`. -/
theorem grassfire_field_local (numRows numCols : Nat)
    (obstacles : Finset Pos) (dest : Pos)
    (hdest : inBoundsB numRows numCols dest = true)
    (c : Pos) (k : Nat)
    (hfin : grassfireField obstacles dest numRows numCols c = .fin k)
    (hne : c ≠ dest) :
    ∃ j, k = j + 1 ∧ ∃ d ∈ deltas,
      inBoundsB numRows numCols (addDelta c d) = true ∧
      grassfireField obstacles dest numRows numCols (addDelta c d) =
        .fin j := by
  obtain ⟨hreach, hcinb⟩ := grassfireField_sound hdest hfin
  have hleast := grassfireField_least hdest hfin
  cases k with
  | zero =>
    exfalso
    have h0 : c = dest := by
      simpa [ReachIn, reachInB] using hreach
    exact hne h0
  | succ j =>
    have hnotj : ¬ ReachIn obstacles dest numRows numCols j c := by
      intro hj
      have := hleast j hj
      omega
    rw [ReachIn, reachInB] at hreach
    simp only [Bool.or_eq_true, Bool.and_eq_true, List.any_eq_true,
      Bool.not_eq_true', decide_eq_false_iff_not] at hreach
    rcases hreach with hj | ⟨⟨hinb, hobst⟩, d, hd, hreachd⟩
    · exact absurd hj hnotj
    · obtain ⟨m, hm, hfm⟩ := grassfireField_complete hdest j (addDelta c d)
        hreachd
      have hcons := grassfireField_consist hdest hfin hfm
        (adjacent_of_delta hd)
      have hmj : m = j := by omega
      subst hmj
      exact ⟨m, rfl, d, hd, (grassfireField_sound hdest hfm).2, hfm⟩

theorem grassfire_field_local_witness :
    ∃ j, 2 = j + 1 ∧ ∃ d ∈ deltas,
      inBoundsB 2 2 (addDelta ((1 : Int), (1 : Int)) d) = true ∧
      grassfireField ∅ ((0 : Int), (0 : Int)) 2 2
        (addDelta ((1 : Int), (1 : Int)) d) = .fin j :=
  grassfire_field_local 2 2 ∅ (0, 0) (by decide) (1, 1) 2 (by decide)
    (by decide)

/-- **C10**: whenever the start cell equals the in-bounds destination cell
— even when that cell is an obstacle — the reconstruction returns the
non-empty single-cell path `[start]`, because the destination is forced to
`0`, the `isinf` guard passes, and the walk loop exits immediately. -/
theorem grassfire_start_eq_dest (numRows numCols : Nat)
    (obstacles : Finset Pos) (start dest : Pos) (fuel : Nat)
    (hdest : inBoundsB numRows numCols dest = true) (hsd : start = dest) :
    (grassfire_algorithm obstacles start dest numRows numCols
      (fuel + 1)).1 = .path [start] := by
  subst hsd
  have hf0 := grassfireField_dest obstacles start numRows numCols
  show reconstruct numRows numCols
    (grassfireField obstacles start numRows numCols) start start (fuel + 1) =
    .path [start]
  rw [reconstruct, hf0]
  simp [walkAux, Val.isInf]

theorem grassfire_start_eq_dest_witness :
    (grassfire_algorithm {((0 : Int), (0 : Int))} (0, 0) (0, 0) 8 8 1).1 =
      .path [((0 : Int), (0 : Int))] :=
  grassfire_start_eq_dest 8 8 {((0 : Int), (0 : Int))} (0, 0) (0, 0) 0
    (by decide) rfl

/-- **C2** (counterexample evaluation): on the obstacle-free 8×8 grid with
start `(0,3)` and destination `(7,6)`, the returned path is non-empty but
ordered destination→start — its first element is the destination and its
last element is the start, and the field values along the returned order
increase from `0` up to `field[start] = 10` — because line 83 reverses the
walk, which was already built in start→destination order. -/
theorem c2_path_order_eval :
    (grassfire_algorithm ∅ ((0 : Int), (3 : Int)) ((7 : Int), (6 : Int))
        8 8 20).1 =
      .path [(7, 6), (7, 5), (7, 4), (7, 3), (6, 3), (5, 3), (4, 3), (3, 3),
        (2, 3), (1, 3), (0, 3)] ∧
    grassfireField ∅ ((7 : Int), (6 : Int)) 8 8 ((0 : Int), (3 : Int)) =
      .fin 10 ∧
    grassfireField ∅ ((7 : Int), (6 : Int)) 8 8 ((7 : Int), (6 : Int)) =
      .fin 0 := by
  refine ⟨by decide, by decide, by decide⟩

/-- **C3** (counterexample evaluation): with the start cell `(7,6)` inside
an obstacle (field value `nan`, a non-finite sentinel) and destination
`(6,6)`, the reconstruction does not return an empty path: the `isinf`
guard of line 70 fails to detect `nan`, the walk runs and returns the
non-empty two-cell path. -/
theorem c3_blocked_start_eval :
    grassfireField {((7 : Int), (6 : Int))} ((6 : Int), (6 : Int)) 8 8
      ((7 : Int), (6 : Int)) = .nan ∧
    (grassfire_algorithm {((7 : Int), (6 : Int))} ((7 : Int), (6 : Int))
        ((6 : Int), (6 : Int)) 8 8 10).1 =
      .path [(6, 6), (7, 6)] := by
  refine ⟨by decide, by decide⟩

/-- **C5** (counterexample evaluation): with obstacle `(6,6)`, start
`(7,6)` and destination `(5,6)` on the 8×8 grid, `field[start] = 4`
(the true obstacle-free shortest path has 5 cells), yet the returned
non-empty path has 3 cells — it walks straight through the obstacle cell
`(6,6)` — so its cell count differs from `field[start] + 1` and it is not
an obstacle-free shortest path. -/
theorem c5_wrong_length_eval :
    grassfireField {((6 : Int), (6 : Int))} ((5 : Int), (6 : Int)) 8 8
      ((7 : Int), (6 : Int)) = .fin 4 ∧
    (grassfire_algorithm {((6 : Int), (6 : Int))} ((7 : Int), (6 : Int))
        ((5 : Int), (6 : Int)) 8 8 10).1 =
      .path [(5, 6), (6, 6), (7, 6)] ∧
    ([((5 : Int), (6 : Int)), ((6 : Int), (6 : Int)),
        ((7 : Int), (6 : Int))].length = 3) ∧
    ((6 : Int), (6 : Int)) ∈ ({((6 : Int), (6 : Int))} : Finset Pos) := by
  refine ⟨by decide, by decide, by decide, by decide⟩

/-- **C7** (counterexample evaluation): on the field for obstacles
`{(1,3)}` and destination `(7,6)`, the walk step at `(2,3)` has in-bounds
neighbours `(1,3)` (blocked, `nan`), `(3,3)` and `(2,4)` (both finite
value 7) and `(2,2)` (value 9); the claimed rule — minimise the field
value, ties to the higher row — would choose `(3,3)`, but the code's
`min` keeps the `nan`-keyed first candidate and chooses the blocked cell
`(1,3)`. -/
theorem c7_tiebreak_eval :
    neighborList 8 8 ((2 : Int), (3 : Int)) =
      [(1, 3), (3, 3), (2, 2), (2, 4)] ∧
    pyMin (grassfireField {((1 : Int), (3 : Int))} ((7 : Int), (6 : Int)) 8 8)
      (neighborList 8 8 ((2 : Int), (3 : Int))) = some (1, 3) ∧
    grassfireField {((1 : Int), (3 : Int))} ((7 : Int), (6 : Int)) 8 8
      ((1 : Int), (3 : Int)) = .nan ∧
    grassfireField {((1 : Int), (3 : Int))} ((7 : Int), (6 : Int)) 8 8
      ((3 : Int), (3 : Int)) = .fin 7 ∧
    grassfireField {((1 : Int), (3 : Int))} ((7 : Int), (6 : Int)) 8 8
      ((2 : Int), (4 : Int)) = .fin 7 ∧
    grassfireField {((1 : Int), (3 : Int))} ((7 : Int), (6 : Int)) 8 8
      ((2 : Int), (2 : Int)) = .fin 9 := by
  refine ⟨by decide, by decide, by decide, by decide, by decide, by decide⟩

/-- One oscillation step: from `(2,3)` the walk moves to the blocked cell
`(1,3)` (the `nan` key is never beaten) and the `>=` progress guard is
false because its left operand is `nan`. -/
theorem c6_step_a (n : Nat) (acc : List Pos) :
    walkAux 8 8 (grassfireField {((1 : Int), (3 : Int))} ((7 : Int), (6 : Int))
        8 8) ((7 : Int), (6 : Int)) (n + 1) ((2 : Int), (3 : Int)) acc =
    walkAux 8 8 (grassfireField {((1 : Int), (3 : Int))} ((7 : Int), (6 : Int))
        8 8) ((7 : Int), (6 : Int)) n ((1 : Int), (3 : Int))
      (acc ++ [((2 : Int), (3 : Int))]) := rfl

/-- One oscillation step: from the blocked cell `(1,3)` the walk moves
back to `(2,3)` (value 8, the minimum among the finite neighbours) and the
`>=` progress guard is false because its right operand is `nan`. -/
theorem c6_step_b (n : Nat) (acc : List Pos) :
    walkAux 8 8 (grassfireField {((1 : Int), (3 : Int))} ((7 : Int), (6 : Int))
        8 8) ((7 : Int), (6 : Int)) (n + 1) ((1 : Int), (3 : Int)) acc =
    walkAux 8 8 (grassfireField {((1 : Int), (3 : Int))} ((7 : Int), (6 : Int))
        8 8) ((7 : Int), (6 : Int)) n ((2 : Int), (3 : Int))
      (acc ++ [((1 : Int), (3 : Int))]) := rfl

/-- **C6** (counterexample evaluation): with obstacle `(1,3)`, start
`(2,3)` and destination `(7,6)` on the 8×8 grid, `field[start]` is the
finite value 8, so the walk is entered, and it then oscillates between
`(2,3)` and the blocked cell `(1,3)` forever: for every fuel bound the
loop is still running, i.e. the Python `while` loop never terminates and
in particular never stops at a step without strict progress. -/
theorem c6_walk_diverges :
    grassfireField {((1 : Int), (3 : Int))} ((7 : Int), (6 : Int)) 8 8
      ((2 : Int), (3 : Int)) = .fin 8 ∧
    ∀ (fuel : Nat) (acc : List Pos),
      walkAux 8 8 (grassfireField {((1 : Int), (3 : Int))}
          ((7 : Int), (6 : Int)) 8 8) ((7 : Int), (6 : Int)) fuel
        ((2 : Int), (3 : Int)) acc = .fuelOut ∧
      walkAux 8 8 (grassfireField {((1 : Int), (3 : Int))}
          ((7 : Int), (6 : Int)) 8 8) ((7 : Int), (6 : Int)) fuel
        ((1 : Int), (3 : Int)) acc = .fuelOut := by
  refine ⟨by decide, ?_⟩
  intro fuel
  induction fuel with
  | zero => intro acc; exact ⟨rfl, rfl⟩
  | succ n ih =>
    intro acc
    constructor
    · rw [c6_step_a]
      exact (ih _).2
    · rw [c6_step_b]
      exact (ih _).1

end Grassfire
